import Mathlib

/-!
Verification of the economic-analysis core of the pea-protein-analysis engine.

The Rust sources under src/backend/rust_modules/src are shallowly embedded
over exact rationals (f64 values become ℚ, f64::EPSILON becomes 2^-52).
Fallible operations (Rust panics, FFI failure returns) become Option.
-/

unseal Rat.inv Rat.add Rat.mul Rat.sub Rat.ofScientific

/-- f64::EPSILON, the machine epsilon of IEEE-754 binary64: 2^-52. -/
def EPS64 : ℚ := 1 / 2 ^ 52

/-- Embedding of economic/npv.rs calculate_npv_from_slice: iterates the
flows with their zero-based index, each term is 0 when |1 + rate| is below
machine epsilon, otherwise flow / (1 + rate)^year, and sums. Empty input
returns 0 up front. -/
def calculate_npv_from_slice (flows : List ℚ) (rate : ℚ) : ℚ :=
  if flows.isEmpty then 0
  else (flows.enum.map (fun p =>
    if |1 + rate| < EPS64 then 0 else p.2 / (1 + rate) ^ p.1)).sum

/-- Embedding of the exported calculate_npv wrapper of economic/npv.rs: a
null pointer or len == 0 returns 0, otherwise it delegates to
calculate_npv_from_slice (the non-null slice is the List itself). -/
def calculate_npv (flows : List ℚ) (rate : ℚ) : ℚ :=
  if flows = [] then 0 else calculate_npv_from_slice flows rate

theorem calculate_npv_eq (flows : List ℚ) (rate : ℚ) :
    calculate_npv flows rate = calculate_npv_from_slice flows rate := by
  cases flows with
  | nil => rfl
  | cons a l => simp [calculate_npv, calculate_npv_from_slice]

theorem enumFrom_map_sum (g : ℕ → ℚ → ℚ) :
    ∀ (flows : List ℚ) (n : ℕ),
      ((List.enumFrom n flows).map (fun p => g p.1 p.2)).sum =
        ∑ t in Finset.range flows.length, g (n + t) (flows.getD t 0) := by
  intro flows
  induction flows with
  | nil => intro n; simp
  | cons a l ih =>
    intro n
    simp only [List.enumFrom, List.map_cons, List.sum_cons, List.length_cons, ih]
    rw [Finset.sum_range_succ']
    simp only [List.getD_cons_succ, List.getD_cons_zero, Nat.add_zero]
    rw [add_comm]
    congr 1
    refine Finset.sum_congr rfl fun t _ => ?_
    rw [show n + 1 + t = n + (t + 1) from by omega]

/-- C1: calculate_npv_from_slice returns 0 on the empty series for every
rate; when |1 + rate| is below machine epsilon every term is treated as 0
so the result is exactly 0 (in exact arithmetic no infinity or NaN can
arise); and otherwise it returns the sum over zero-based t of
flows[t] / (1 + rate)^t. -/
theorem npv_formula (flows : List ℚ) (rate : ℚ) :
    calculate_npv_from_slice [] rate = 0 ∧
    (|1 + rate| < EPS64 → calculate_npv_from_slice flows rate = 0) ∧
    (EPS64 ≤ |1 + rate| →
      calculate_npv_from_slice flows rate =
        ∑ t in Finset.range flows.length, flows.getD t 0 / (1 + rate) ^ t) := by
  refine ⟨rfl, ?_, ?_⟩
  · intro h
    cases flows with
    | nil => rfl
    | cons a l =>
      simp only [calculate_npv_from_slice, List.isEmpty_cons, if_false, Bool.false_eq_true]
      rw [show (fun p : ℕ × ℚ => if |1 + rate| < EPS64 then 0 else p.2 / (1 + rate) ^ p.1) =
        fun _ : ℕ × ℚ => (0 : ℚ) from funext fun p => if_pos h]
      exact List.sum_eq_zero (by simp)
  · intro h
    cases flows with
    | nil => simp [calculate_npv_from_slice]
    | cons a l =>
      simp only [calculate_npv_from_slice, List.isEmpty_cons, if_false, Bool.false_eq_true]
      rw [show (fun p : ℕ × ℚ => if |1 + rate| < EPS64 then 0 else p.2 / (1 + rate) ^ p.1) =
        fun p : ℕ × ℚ => p.2 / (1 + rate) ^ p.1 from funext fun p => if_neg (not_lt.mpr h)]
      have h0 := enumFrom_map_sum (fun t v => v / (1 + rate) ^ t) (a :: l) 0
      simp only [Nat.zero_add] at h0
      exact h0

theorem npv_formula_witness :
    calculate_npv_from_slice [-1000, 500] (1 / 10) =
      ∑ t in Finset.range ([(-1000 : ℚ), 500].length),
        [(-1000 : ℚ), 500].getD t 0 / (1 + 1 / 10) ^ t :=
  (npv_formula [-1000, 500] (1 / 10)).2.2 (by decide)

/-- Newton-Raphson convergence tolerance of economic/irr.rs: 1e-6. -/
def IRR_TOLERANCE : ℚ := 1 / 1000000

/-- Finite-difference step of economic/irr.rs: 1e-4. -/
def IRR_DELTA : ℚ := 1 / 10000

/-- One Newton-Raphson update of economic/irr.rs calculate_irr: the
derivative is the forward finite difference of the NPV with step IRR_DELTA
and the rate moves by -npv/derivative. -/
def newtonStep (flows : List ℚ) (rate : ℚ) : ℚ :=
  let npv := calculate_npv_from_slice flows rate
  let derivative := (calculate_npv_from_slice flows (rate + IRR_DELTA) - npv) / IRR_DELTA
  rate - npv / derivative

/-- The iteration loop of calculate_irr: at most the given number of
iterations; each iteration first tests |npv| < IRR_TOLERANCE and on success
returns the current rate, otherwise applies newtonStep; exhausting the
fuel is the non-convergence failure (Rust: return false, nothing written). -/
def irrLoop (flows : List ℚ) : ℕ → ℚ → Option ℚ
  | 0, _ => none
  | n + 1, rate =>
    if |calculate_npv_from_slice flows rate| < IRR_TOLERANCE then some rate
    else irrLoop flows n (newtonStep flows rate)

/-- Embedding of economic/irr.rs calculate_irr: 100 iterations maximum,
initial guess 0.10. -/
def calculate_irr (flows : List ℚ) : Option ℚ := irrLoop flows 100 (1 / 10)

theorem irrLoop_some_tol (flows : List ℚ) :
    ∀ (n : ℕ) (r0 r : ℚ), irrLoop flows n r0 = some r →
      |calculate_npv_from_slice flows r| < IRR_TOLERANCE := by
  intro n
  induction n with
  | zero => intro r0 r h; simp [irrLoop] at h
  | succ n ih =>
    intro r0 r h
    rw [irrLoop] at h
    by_cases hc : |calculate_npv_from_slice flows r0| < IRR_TOLERANCE
    · rw [if_pos hc] at h
      cases h
      exact hc
    · rw [if_neg hc] at h
      exact ih (newtonStep flows r0) r h

theorem irrLoop_isSome_iff (flows : List ℚ) :
    ∀ (n : ℕ) (r0 : ℚ), (irrLoop flows n r0).isSome = true ↔
      ∃ k < n, |calculate_npv_from_slice flows ((newtonStep flows)^[k] r0)| < IRR_TOLERANCE := by
  intro n
  induction n with
  | zero => intro r0; simp [irrLoop]
  | succ n ih =>
    intro r0
    rw [irrLoop]
    by_cases hc : |calculate_npv_from_slice flows r0| < IRR_TOLERANCE
    · rw [if_pos hc]
      simp only [Option.isSome_some, true_iff]
      exact ⟨0, by omega, by simpa using hc⟩
    · rw [if_neg hc, ih]
      constructor
      · rintro ⟨k, hk, hlt⟩
        exact ⟨k + 1, by omega, by rwa [Function.iterate_succ_apply]⟩
      · rintro ⟨k, hk, hlt⟩
        cases k with
        | zero => simp only [Function.iterate_zero_apply] at hlt; exact absurd hlt hc
        | succ k =>
          exact ⟨k, by omega, by rwa [Function.iterate_succ_apply] at hlt⟩

/-- C2: calculate_irr succeeds exactly when one of the Newton-Raphson
iterates checked inside the 100-iteration cap (the iterates of newtonStep
from the initial guess 0.10) has |npv| below 1e-6; a returned rate always
satisfies |npv(flows, rate)| < 1e-6; non-convergence is the explicit
failure value none (Rust: returns false without writing the result). -/
theorem irr_convergence (flows : List ℚ) :
    ((calculate_irr flows).isSome = true ↔
      ∃ k < 100,
        |calculate_npv_from_slice flows ((newtonStep flows)^[k] (1 / 10))| < IRR_TOLERANCE) ∧
    ∀ r, calculate_irr flows = some r →
      |calculate_npv_from_slice flows r| < IRR_TOLERANCE :=
  ⟨irrLoop_isSome_iff flows 100 (1 / 10), fun r h => irrLoop_some_tol flows 100 (1 / 10) r h⟩

set_option maxRecDepth 100000 in
theorem irr_convergence_witness :
    |calculate_npv_from_slice [-1000, 1100] (1 / 10)| < IRR_TOLERANCE :=
  (irr_convergence [-1000, 1100]).2 (1 / 10) (by decide)

/-- 2^64, the modulus of u64 wrapping_add used for the per-iteration seed. -/
def U64_MOD : ℕ := 2 ^ 64

/-- One Monte Carlo iteration of economic/monte_carlo.rs
run_economic_monte_carlo, with the iteration's StdRng replaced by its
abstract standard-normal stream zf (the k-th normal draw of the iteration
is zf k, and a Normal(0, sd) sample is sd * zf k). Period 0 passes
through unchanged and consumes no draws; every period t >= 1 consumes
exactly two draws in order - the production draw (index 2*(t-1)) then the
price draw (positive flow) or cost draw (non-positive flow)
(index 2*(t-1)+1) - so the counter position is the closed function of t
shown here. The discounting is inlined without the epsilon guard of
calculate_npv_from_slice. -/
def mcSample (zf : ℕ → ℚ) (values : List ℚ) (pu cu du dr : ℚ) : ℚ :=
  (values.enum.map (fun p =>
    if p.1 = 0 then p.2
    else
      (if p.2 > 0
        then p.2 * (1 + pu * zf (2 * (p.1 - 1) + 1)) * (1 + du * zf (2 * (p.1 - 1)))
        else p.2 * (1 + cu * zf (2 * (p.1 - 1) + 1)) * (1 + du * zf (2 * (p.1 - 1)))) /
        (1 + dr) ^ p.1)).sum

/-- The four summary statistics written to the results buffer by
run_economic_monte_carlo. The Rust code stores variance.sqrt() as the
second entry; a square root of a rational is in general irrational, so the
model keeps the variance (sqrt v = 0 iff v = 0 for v >= 0, so zero-stdDev
claims are stated on the variance). min/max are the folds with the
f64::INFINITY / f64::NEG_INFINITY starting points, modeled by WithTop /
WithBot. -/
structure MonteCarloResult where
  mean : ℚ
  variance : ℚ
  minVal : WithTop ℚ
  maxVal : WithBot ℚ
deriving DecidableEq

/-- Embedding of economic/monte_carlo.rs run_economic_monte_carlo. The
base_values pointer is an Option (none = null); the results pointer is
modeled by the Option return value (none = the function returned false and
wrote nothing). z is the abstract randomness source: z s is the
standard-normal stream of an StdRng seeded with s; each iteration i uses
the stream seeded with seed.wrapping_add(i). Normal::new(0.0, sd) fails
exactly when sd is negative (in exact arithmetic there is no NaN). -/
def run_economic_monte_carlo (z : ℕ → ℕ → ℚ) (base_values : Option (List ℚ))
    (iterations : ℕ) (price_uncertainty cost_uncertainty production_uncertainty : ℚ)
    (seed : ℕ) (discount_rate : ℚ) : Option MonteCarloResult :=
  match base_values with
  | none => none
  | some values =>
    if values = [] ∨ iterations = 0 then none
    else if price_uncertainty < 0 then none
    else if cost_uncertainty < 0 then none
    else if production_uncertainty < 0 then none
    else
      let simulated_npvs := (List.range iterations).map (fun i =>
        mcSample (z ((seed + i) % U64_MOD)) values price_uncertainty cost_uncertainty
          production_uncertainty discount_rate)
      let mean := simulated_npvs.sum / (iterations : ℚ)
      let variance := (simulated_npvs.map (fun x => (x - mean) ^ 2)).sum / (iterations : ℚ)
      some { mean := mean, variance := variance,
             minVal := List.foldl (fun (a : WithTop ℚ) (x : ℚ) => min a ↑x) ⊤ simulated_npvs,
             maxVal := List.foldl (fun (a : WithBot ℚ) (x : ℚ) => max a ↑x) ⊥ simulated_npvs }

/-- C4: run_economic_monte_carlo fails (returns none, i.e. Rust false with
nothing written to the results buffer) exactly when the flows buffer is
null or empty, the iteration count is 0, or one of the three uncertainty
standard deviations cannot form a valid zero-mean normal distribution
(is negative); all these checks precede any simulation work. -/
theorem monte_carlo_invalid_params (z : ℕ → ℕ → ℚ) (base_values : Option (List ℚ))
    (iterations : ℕ) (pu cu du : ℚ) (seed : ℕ) (dr : ℚ) :
    run_economic_monte_carlo z base_values iterations pu cu du seed dr = none ↔
      (base_values = none ∨ base_values = some [] ∨ iterations = 0 ∨
        pu < 0 ∨ cu < 0 ∨ du < 0) := by
  cases base_values with
  | none => simp [run_economic_monte_carlo]
  | some values =>
    simp only [run_economic_monte_carlo, Option.some.injEq, reduceCtorEq, false_or]
    split_ifs with h1 h2 h3 h4
    · simp only [true_iff]
      rcases h1 with h1 | h1
      · exact Or.inl h1
      · exact Or.inr (Or.inl h1)
    · simp only [true_iff]
      exact Or.inr (Or.inr (Or.inl h2))
    · simp only [true_iff]
      exact Or.inr (Or.inr (Or.inr (Or.inl h3)))
    · simp only [true_iff]
      exact Or.inr (Or.inr (Or.inr (Or.inr h4)))
    · simp only [reduceCtorEq, false_iff]
      push_neg at h1
      rintro (h | h | h | h | h)
      · exact h1.1 h
      · exact h1.2 h
      · exact h2 h
      · exact h3 h
      · exact h4 h

theorem mcSample_zero_noise (zf : ℕ → ℚ) (values : List ℚ) (dr : ℚ)
    (h : EPS64 ≤ |1 + dr|) :
    mcSample zf values 0 0 0 dr = calculate_npv_from_slice values dr := by
  cases values with
  | nil => rfl
  | cons a l =>
    simp only [mcSample, calculate_npv_from_slice, List.isEmpty_cons, if_false,
      Bool.false_eq_true]
    congr 1
    apply List.map_congr_left
    intro p _
    rw [if_neg (not_lt.mpr h)]
    by_cases hp : p.1 = 0
    · simp [hp]
    · rw [if_neg hp]
      rw [show (if p.2 > 0
          then p.2 * (1 + 0 * zf (2 * (p.1 - 1) + 1)) * (1 + 0 * zf (2 * (p.1 - 1)))
          else p.2 * (1 + 0 * zf (2 * (p.1 - 1) + 1)) * (1 + 0 * zf (2 * (p.1 - 1)))) = p.2
        from by rw [ite_self]; ring]

/-- C6 (amended): for every non-empty cash-flow series, seed, randomness
source and discount rate with |1 + rate| at least machine epsilon (the
claim as stated fails when |1 + rate| is below machine epsilon, see the
counterexample), one iteration with all three uncertainty standard
deviations equal to 0 succeeds and returns mean = min = max =
calculate_npv_from_slice(flows, rate) and zero variance (hence zero
standard deviation). -/
theorem monte_carlo_zero_noise (z : ℕ → ℕ → ℚ) (v0 : ℚ) (rest : List ℚ)
    (seed : ℕ) (dr : ℚ) (h : EPS64 ≤ |1 + dr|) :
    run_economic_monte_carlo z (some (v0 :: rest)) 1 0 0 0 seed dr =
      some { mean := calculate_npv_from_slice (v0 :: rest) dr,
             variance := 0,
             minVal := (calculate_npv_from_slice (v0 :: rest) dr : WithTop ℚ),
             maxVal := (calculate_npv_from_slice (v0 :: rest) dr : WithBot ℚ) } := by
  have hnil : ¬(v0 :: rest = [] ∨ (1 : ℕ) = 0) := by simp
  simp only [run_economic_monte_carlo, if_neg hnil, if_neg (not_lt.mpr le_rfl)]
  rw [show List.range 1 = [0] from rfl]
  rw [List.map_cons, List.map_nil,
    mcSample_zero_noise (z ((seed + 0) % U64_MOD)) (v0 :: rest) dr h]
  simp only [Option.some.injEq, MonteCarloResult.mk.injEq]
  refine ⟨?_, ?_, ?_, ?_⟩
  · rw [List.sum_cons, List.sum_nil, Nat.cast_one, add_zero, div_one]
  · simp only [List.map_cons, List.map_nil, List.sum_cons, List.sum_nil, Nat.cast_one]
    ring_nf
  · rw [List.foldl_cons, List.foldl_nil, min_eq_right le_top]
  · rw [List.foldl_cons, List.foldl_nil, max_eq_right bot_le]

set_option maxRecDepth 100000 in
/-- C6 counterexample: at flows = [-1000] and discount rate -1 + 2^-53
(strictly greater than -1, but with |1 + rate| below machine epsilon) a
single zero-noise iteration succeeds with mean -1000, while
calculate_npv_from_slice returns 0 because of the epsilon guard, so the
claim as stated (mean equals the NPV for every discount rate) is false at
this input. -/
theorem monte_carlo_zero_noise_counterexample :
    (run_economic_monte_carlo (fun _ _ => 0) (some [-1000]) 1 0 0 0 0
        (-1 + 1 / 2 ^ 53)).map MonteCarloResult.mean = some (-1000) ∧
    calculate_npv_from_slice [-1000] (-1 + 1 / 2 ^ 53) = 0 ∧
    ((-1000 : ℚ) ≠ 0) := by
  refine ⟨?_, by decide, by decide⟩
  decide

set_option maxRecDepth 100000 in
theorem monte_carlo_zero_noise_witness :
    run_economic_monte_carlo (fun _ _ => 0) (some (-1000 :: [500])) 1 0 0 0 0 (1 / 10) =
      some { mean := calculate_npv_from_slice (-1000 :: [500]) (1 / 10),
             variance := 0,
             minVal := (calculate_npv_from_slice (-1000 :: [500]) (1 / 10) : WithTop ℚ),
             maxVal := (calculate_npv_from_slice (-1000 :: [500]) (1 / 10) : WithBot ℚ) } :=
  monte_carlo_zero_noise (fun _ _ => 0) (-1000) [500] 0 (1 / 10) (by decide)

/-- Embedding of economic/sensitivity.rs calculate_with_volume_factor.
The Rust function reads cash_flows[0] before anything else; on an empty
slice this is an out-of-bounds index (a panic), modeled as none. Positive
flows after index 0 scale by the relative factor
factor / ((range_max + range_min)/2) (0 when factor <= 0); negative flows
split into a fixed portion (times fcr, unscaled) and a variable portion
(times 1 - fcr, scaled); the result is the NPV at the discount rate. -/
def calculate_with_volume_factor (cash_flows : List ℚ)
    (factor discount_rate fcr range_min range_max : ℚ) : Option ℚ :=
  match cash_flows with
  | [] => none
  | initial_investment :: rest =>
    let base_volume := (range_max + range_min) / 2
    let relative_factor := if factor > 0 then factor / base_volume else 0
    some (calculate_npv
      (initial_investment :: rest.map (fun cf =>
        if cf > 0 then cf * relative_factor
        else cf * fcr + cf * (1 - fcr) * relative_factor)) discount_rate)

/-- Embedding of economic/sensitivity.rs calculate_with_opex_factor; reads
cash_flows[0] first (none on empty input models the Rust panic). Each
later flow cf becomes (cf + |cf|*vcr) - (|cf|*vcr)*factor - |cf|*fcr. -/
def calculate_with_opex_factor (cash_flows : List ℚ)
    (factor discount_rate fcr vcr : ℚ) : Option ℚ :=
  match cash_flows with
  | [] => none
  | initial_investment :: rest =>
    some (calculate_npv
      (initial_investment :: rest.map (fun cf =>
        cf + |cf| * vcr - |cf| * vcr * factor - |cf| * fcr)) discount_rate)

/-- Embedding of economic/sensitivity.rs calculate_with_revenue_factor;
reads cash_flows[0] first (none on empty input models the Rust panic).
Positive later flows scale by the factor, the rest stay unchanged. -/
def calculate_with_revenue_factor (cash_flows : List ℚ)
    (factor discount_rate : ℚ) : Option ℚ :=
  match cash_flows with
  | [] => none
  | initial_investment :: rest =>
    some (calculate_npv
      (initial_investment :: rest.map (fun cf =>
        if cf > 0 then cf * factor else cf)) discount_rate)

/-- Embedding of economic/sensitivity.rs calculate_npv_with_rate, which
forwards the slice to the exported calculate_npv. -/
def calculate_npv_with_rate (cash_flows : List ℚ) (discount_rate : ℚ) : ℚ :=
  calculate_npv cash_flows discount_rate

/-- The per-step dispatch of run_sensitivity_analysis: the match on
variable_index (0 discount rate, 1 production volume, 2 operating costs,
3 revenue, anything else the discount-rate default at the provided
discount rate). -/
def sensitivityStep (values : List ℚ) (variable_index : ℕ)
    (range_min range_max discount_rate fcr vcr : ℚ) (factor : ℚ) : Option ℚ :=
  match variable_index with
  | 0 => some (calculate_npv_with_rate values factor)
  | 1 => calculate_with_volume_factor values factor discount_rate fcr range_min range_max
  | 2 => calculate_with_opex_factor values factor discount_rate fcr vcr
  | 3 => calculate_with_revenue_factor values factor discount_rate
  | _ => some (calculate_npv_with_rate values discount_rate)

/-- Collects the per-step results of the parallel sweep into the results
buffer in step order; a none (a panicking step) aborts the whole call. -/
def collectResults : List (Option ℚ) → Option (List ℚ)
  | [] => some []
  | none :: _ => none
  | some x :: rest => (collectResults rest).map (fun ys => x :: ys)

/-- Embedding of economic/sensitivity.rs run_sensitivity_analysis:
step_size = (range_max - range_min) / steps, one evaluation per stepIndex
in 0..=steps at factor = range_min + stepIndex * step_size, results stored
by step index. -/
def run_sensitivity_analysis (base_values : List ℚ) (variable_index : ℕ)
    (range_min range_max : ℚ) (steps : ℕ) (discount_rate fcr vcr : ℚ) :
    Option (List ℚ) :=
  collectResults ((List.range (steps + 1)).map (fun (i : ℕ) =>
    sensitivityStep base_values variable_index range_min range_max discount_rate fcr vcr
      (range_min + (i : ℚ) * ((range_max - range_min) / (steps : ℚ)))))

theorem collectResults_length :
    ∀ (l : List (Option ℚ)) (ys : List ℚ), collectResults l = some ys →
      ys.length = l.length := by
  intro l
  induction l with
  | nil =>
    intro ys h
    simp only [collectResults, Option.some.injEq] at h
    simp [← h]
  | cons o rest ih =>
    intro ys h
    cases o with
    | none => simp [collectResults] at h
    | some x =>
      simp only [collectResults, Option.map_eq_some'] at h
      obtain ⟨ys', hys', rfl⟩ := h
      simp [ih ys' hys']

theorem collectResults_get :
    ∀ (l : List (Option ℚ)) (ys : List ℚ), collectResults l = some ys →
      ∀ i, ys.get? i = (l.get? i).join := by
  intro l
  induction l with
  | nil =>
    intro ys h i
    simp only [collectResults, Option.some.injEq] at h
    simp [← h]
  | cons o rest ih =>
    intro ys h i
    cases o with
    | none => simp [collectResults] at h
    | some x =>
      simp only [collectResults, Option.map_eq_some'] at h
      obtain ⟨ys', hys', rfl⟩ := h
      cases i with
      | zero => simp
      | succ i => simpa using ih ys' hys' i

theorem collectResults_map_const (c : ℚ) :
    ∀ (l : List ℕ), collectResults (l.map (fun _ => some c)) =
      some (List.replicate l.length c) := by
  intro l
  induction l with
  | nil => rfl
  | cons a t ih =>
    simp only [List.map_cons, collectResults, ih, Option.map_some', List.length_cons,
      List.replicate_succ]

set_option maxRecDepth 100000 in
/-- C3 (evaluation at the failing input): called with len == 0 and the
ProductionVolume selector, run_sensitivity_analysis reads cash_flows[0] of
an empty slice - an out-of-bounds access (a Rust panic), modeled as none -
instead of validating the length and completing with a defined result;
the OperatingCosts and Revenue transformations fault the same way. -/
theorem sensitivity_empty_input_faults :
    run_sensitivity_analysis [] 1 (3 / 4) (3 / 2) 1 (1 / 10) (1 / 2) (1 / 2) = none ∧
    calculate_with_volume_factor [] 1 (1 / 10) (1 / 2) (3 / 4) (3 / 2) = none ∧
    calculate_with_opex_factor [] 1 (1 / 10) (1 / 2) (1 / 2) = none ∧
    calculate_with_revenue_factor [] 1 (1 / 10) = none :=
  ⟨by decide, rfl, rfl, rfl⟩

/-- C7: whenever a sweep with steps >= 1 completes, it writes exactly
steps + 1 results ordered by step index, result i being the selected
evaluation at factor = range_min + i * (range_max - range_min) / steps;
and concretely a DiscountRate sweep with range_min = range_max = r0 and
steps = 1 returns exactly [npv(flows, r0), npv(flows, r0)]. -/
theorem sensitivity_sweep_shape (values : List ℚ) (vi : ℕ) (rmin rmax : ℚ)
    (steps : ℕ) (dr fcr vcr : ℚ) (hs : 1 ≤ steps) (l : List ℚ)
    (h : run_sensitivity_analysis values vi rmin rmax steps dr fcr vcr = some l) :
    (l.length = steps + 1 ∧
      ∀ i, i ≤ steps → l.get? i =
        sensitivityStep values vi rmin rmax dr fcr vcr
          (rmin + (i : ℚ) * ((rmax - rmin) / (steps : ℚ)))) ∧
    ∀ (flows : List ℚ) (r0 : ℚ),
      run_sensitivity_analysis flows 0 r0 r0 1 dr fcr vcr =
        some [calculate_npv_from_slice flows r0, calculate_npv_from_slice flows r0] := by
  constructor
  · constructor
    · have hl := collectResults_length _ _ h
      simpa using hl
    · intro i hi
      have hg := collectResults_get _ _ h i
      rw [hg, List.get?_map, List.get?_range (by omega : i < steps + 1)]
      rfl
  · intro flows r0
    have hstep : ∀ q : ℚ, sensitivityStep flows 0 r0 r0 dr fcr vcr q =
        some (calculate_npv_from_slice flows q) := fun q => by
      simp [sensitivityStep, calculate_npv_with_rate, calculate_npv_eq]
    show collectResults _ = _
    rw [show List.range (1 + 1) = [0, 1] from rfl, List.map_cons, List.map_cons,
      List.map_nil, hstep, hstep]
    simp [collectResults]

set_option maxRecDepth 100000 in
theorem sensitivity_sweep_shape_witness :
    (([(-500 : ℚ), -750] : List ℚ).length = 1 + 1) ∧
    ([(-500 : ℚ), -750] : List ℚ).get? 1 =
      sensitivityStep [-1000, 500] 0 0 1 (1 / 10) 0 0
        (0 + ((1 : ℕ) : ℚ) * ((1 - 0) / ((1 : ℕ) : ℚ))) := by
  have h := sensitivity_sweep_shape [-1000, 500] 0 0 1 1 (1 / 10) 0 0 (by decide)
    [(-500 : ℚ), -750] (by decide)
  exact ⟨h.1.1, h.1.2 1 (by decide)⟩

/-- C8: for every variable selector outside the four recognized cases
(every index greater than 3) run_sensitivity_analysis falls back to the
DiscountRate behavior at the provided discount rate: all steps + 1 results
equal npv(flows, discount_rate), independent of the step's factor. -/
theorem sensitivity_unknown_variable (values : List ℚ) (vi : ℕ) (h : 3 < vi)
    (rmin rmax : ℚ) (steps : ℕ) (dr fcr vcr : ℚ) :
    run_sensitivity_analysis values vi rmin rmax steps dr fcr vcr =
      some (List.replicate (steps + 1) (calculate_npv_from_slice values dr)) := by
  obtain ⟨k, rfl⟩ : ∃ k, vi = k + 4 := ⟨vi - 4, by omega⟩
  have hstep : ∀ q : ℚ, sensitivityStep values (k + 4) rmin rmax dr fcr vcr q =
      some (calculate_npv_from_slice values dr) := fun q => by
    show some (calculate_npv_with_rate values dr) = _
    rw [calculate_npv_with_rate, calculate_npv_eq]
  show collectResults _ = _
  simp only [hstep]
  rw [collectResults_map_const, List.length_range]

set_option maxRecDepth 100000 in
theorem sensitivity_unknown_variable_witness :
    run_sensitivity_analysis [-1000, 500] 7 0 1 2 (1 / 10) 0 0 =
      some (List.replicate (2 + 1) (calculate_npv_from_slice [-1000, 500] (1 / 10))) :=
  sensitivity_unknown_variable [-1000, 500] 7 (by decide) 0 1 2 (1 / 10) 0 0

set_option maxRecDepth 100000 in
/-- C9: a Revenue sweep leaves index 0 untouched, scales every positive
later flow by the step's factor, leaves non-positive flows unchanged and
evaluates the NPV at the provided discount rate; concretely with
flows = [-1000, 800], range [0.8, 1.2], steps = 2, discount rate 0.1 the
three resulting NPV values are strictly increasing in the step index. -/
theorem revenue_sweep :
    (∀ (v0 : ℚ) (rest : List ℚ) (factor dr : ℚ),
      calculate_with_revenue_factor (v0 :: rest) factor dr =
        some (calculate_npv
          (v0 :: rest.map (fun cf => if cf > 0 then cf * factor else cf)) dr)) ∧
    run_sensitivity_analysis [-1000, 800] 3 (4 / 5) (6 / 5) 2 (1 / 10) 0 0 =
      some [-4600 / 11, -3000 / 11, -1400 / 11] ∧
    ((-4600 / 11 : ℚ) < -3000 / 11) ∧ ((-3000 / 11 : ℚ) < -1400 / 11) :=
  ⟨fun v0 rest factor dr => rfl, by decide, by decide, by decide⟩

/-- The augmented matrix [A | I] built by matrix_ops/operations.rs
matrix_inverse from the caller's row-major n x n buffer: width 2n, left
half a copy of the input, right half the identity. -/
def augmentedOf (mat : Array ℚ) (n : ℕ) : Array ℚ :=
  (List.range n).foldl (fun aug i =>
    ((List.range n).foldl (fun aug j =>
      aug.setD (i * (2 * n) + j) (mat.getD (i * n + j) 0)) aug).setD
      (i * (2 * n) + n + i) 1)
    (Array.mkArray (n * 2 * n) 0)

/-- Partial-pivot search of matrix_inverse in column i: running maximum of
|aug[j][i]| over rows j from i+1 to n-1 starting from row i, together with
its row index. -/
def pivotColumn (aug : Array ℚ) (n i : ℕ) : ℚ × ℕ :=
  (List.range' (i + 1) (n - (i + 1))).foldl (fun acc j =>
    if |aug.getD (j * (2 * n) + i) 0| > acc.1 then (|aug.getD (j * (2 * n) + i) 0|, j)
    else acc)
    (|aug.getD (i * (2 * n) + i) 0|, i)

/-- The row swap of matrix_inverse (entry-wise over the 2n columns). -/
def swapRows (aug : Array ℚ) (n r1 r2 : ℕ) : Array ℚ :=
  (List.range (2 * n)).foldl (fun a j =>
    (a.setD (r1 * (2 * n) + j) (a.getD (r2 * (2 * n) + j) 0)).setD (r2 * (2 * n) + j)
      (a.getD (r1 * (2 * n) + j) 0)) aug

/-- The pivot-row scaling of matrix_inverse: the pivot is read once before
the loop, then every entry of row i is divided by it. -/
def scaleRow (aug : Array ℚ) (n i : ℕ) : Array ℚ :=
  let pivot := aug.getD (i * (2 * n) + i) 0
  (List.range (2 * n)).foldl (fun a j =>
    a.setD (i * (2 * n) + j) (a.getD (i * (2 * n) + j) 0 / pivot)) aug

/-- The column elimination of matrix_inverse: for every row j other than
i, the factor aug[j][i] is read before the inner loop and row i times the
factor is subtracted from row j across all 2n columns. -/
def eliminateColumn (aug : Array ℚ) (n i : ℕ) : Array ℚ :=
  (List.range n).foldl (fun a j =>
    if j ≠ i then
      let factor := a.getD (j * (2 * n) + i) 0
      (List.range (2 * n)).foldl (fun a k =>
        a.setD (j * (2 * n) + k)
          (a.getD (j * (2 * n) + k) 0 - factor * a.getD (i * (2 * n) + k) 0)) a
    else a) aug

/-- The singularity threshold of matrix_inverse: 1e-10. -/
def SINGULAR_TOL : ℚ := 1 / 10 ^ 10

/-- One elimination column of matrix_inverse: pivot search, the Singular
failure when the best pivot magnitude is below 1e-10, otherwise swap (when
needed), scale and eliminate. -/
def gaussStep (n : ℕ) (aug : Array ℚ) (i : ℕ) : Option (Array ℚ) :=
  let p := pivotColumn aug n i
  if p.1 < SINGULAR_TOL then none
  else
    let a1 := if p.2 ≠ i then swapRows aug n i p.2 else aug
    some (eliminateColumn (scaleRow a1 n i) n i)

/-- The write-back of matrix_inverse: the right half of the augmented
matrix is copied into the caller's buffer. -/
def extractInverse (aug mat : Array ℚ) (n : ℕ) : Array ℚ :=
  (List.range n).foldl (fun s i =>
    (List.range n).foldl (fun s j =>
      s.setD (i * n + j) (aug.getD (i * (2 * n) + n + j) 0)) s) mat

/-- Embedding of matrix_ops/operations.rs matrix_inverse: the bool is the
Rust return value and the array is the caller's buffer after the call
(mutated in place only on success). -/
def matrix_inverse (mat : Array ℚ) (n : ℕ) : Bool × Array ℚ :=
  match (List.range n).foldlM (gaussStep n) (augmentedOf mat n) with
  | none => (false, mat)
  | some aug => (true, extractInverse aug mat n)

/-- C10: whenever matrix_inverse reports failure (the Singular case: some
elimination column has no pivot of magnitude at least 1e-10), the caller's
matrix buffer is left exactly as it was on entry: elimination operates
only on the internal augmented copy, and the input is overwritten only
after all n pivots succeed. -/
theorem matrix_inverse_singular_preserves (mat : Array ℚ) (n : ℕ)
    (h : (matrix_inverse mat n).1 = false) : (matrix_inverse mat n).2 = mat := by
  rw [matrix_inverse] at h ⊢
  cases hfold : (List.range n).foldlM (gaussStep n) (augmentedOf mat n) with
  | none => rfl
  | some aug =>
    rw [hfold] at h
    simp at h

set_option maxRecDepth 100000 in
theorem matrix_inverse_singular_preserves_witness :
    (matrix_inverse (#[1, 2, 2, 4] : Array ℚ) 2).1 = false ∧
    (matrix_inverse (#[1, 2, 2, 4] : Array ℚ) 2).2 = (#[1, 2, 2, 4] : Array ℚ) :=
  ⟨by decide, matrix_inverse_singular_preserves (#[1, 2, 2, 4] : Array ℚ) 2 (by decide)⟩
